import Mathlib

/-!
Verification of the CRYPTOGRAPHER repository (file-to-video codec).

Two source files are modelled:

* `yt-safe.cpp` — the per-frame variant: every frame is 320×240×3 bytes
  with a 16-byte header (8-byte little-endian frame index, 8-byte
  little-endian payload length), payload bytes, and pseudo-random filler.
* `test.cpp` (`main.cpp`) — the bounded producer/consumer pipeline with a
  thread-safe `FrameQueue`, and the global-size variant: the first frame
  begins with the 8-byte big-endian total file size.

Byte buffers are modelled as `List Nat` (each element one byte; values
produced by the code are always `< 256` because every written byte is
reduced `% 256`, mirroring the C `uint8_t` stores).  The C library
`rand()` is modelled as an arbitrary stream `rng : Nat → Nat` together
with a cursor `rpos` giving the position of the next call, which is
faithful because `srand` is never called and the values of `rand` are
implementation defined.  `fread` on a pipe is modelled by its blocking
semantics: a read of `k` bytes returns `min k remaining` bytes.
-/

namespace YtSafe

/-- Source constant `static const size_t FRAME_WIDTH = 320;` -/
def FRAME_WIDTH : Nat := 320

/-- Source constant `static const size_t FRAME_HEIGHT = 240;` -/
def FRAME_HEIGHT : Nat := 240

/-- Source constant `static const size_t FRAME_PIXELS = FRAME_WIDTH * FRAME_HEIGHT;` -/
def FRAME_PIXELS : Nat := FRAME_WIDTH * FRAME_HEIGHT

/-- Source constant `static const size_t FRAME_SIZE = FRAME_PIXELS * 3;` (RGB24 bytes) -/
def FRAME_SIZE : Nat := FRAME_PIXELS * 3

/-- Source constant `static const size_t HEADER_SIZE = 16;` (8-byte index + 8-byte payload size) -/
def HEADER_SIZE : Nat := 16

/-- Function `write_u64_le`: `for (int i = 0; i < 8; i++) dst[i] = (v >> (i * 8)) & 0xFF;`
where `& 0xFF` is `% 256`. -/
def write_u64_le (v : Nat) : List Nat :=
  (List.range 8).map (fun i => (v >>> (i * 8)) % 256)

/-- Function `read_u64_le`: `v = 0; for (int i = 0; i < 8; i++) v |= (uint64_t)src[i] << (i * 8);`
where `src.getD i 0` reads the byte at offset `i` of the buffer. -/
def read_u64_le (src : List Nat) : Nat :=
  (List.range 8).foldl (fun v i => v ||| (src.getD i 0) <<< (i * 8)) 0

/-- The filler loop of `encode_file`:
`for (size_t i = HEADER_SIZE + payload; i < FRAME_SIZE; i++) frame[i] = (uint8_t)(rand() % 256);`
`rng` is the stream of `rand()` results, `rpos` the index of the next call,
and the argument counts the remaining filler positions. -/
def noiseFill (rng : Nat → Nat) (rpos : Nat) : Nat → List Nat
  | 0 => []
  | n + 1 => rng rpos % 256 :: noiseFill rng (rpos + 1) n

/-- One iteration of the loop body of `encode_file`, building the frame buffer for a
chunk of source bytes: 8-byte LE index at offset 0, 8-byte LE payload length at
offset 8, the chunk bytes at offset `HEADER_SIZE`, and `rand()`-noise up to
`FRAME_SIZE`. -/
def encode_frame (rng : Nat → Nat) (rpos : Nat) (frame_index : Nat)
    (chunk : List Nat) : List Nat :=
  write_u64_le frame_index ++ write_u64_le chunk.length ++ chunk ++
    noiseFill rng rpos (FRAME_SIZE - (HEADER_SIZE + chunk.length))

/-- The frame-producing loop of `encode_file`
(`while (bytes_left > 0) { payload = min(bytes_left, FRAME_SIZE - HEADER_SIZE); … }`):
the list of frames written to the ffmpeg pipe, given the remaining file
bytes `data` and the current frame index. -/
def encode_file (rng : Nat → Nat) (rpos : Nat) (data : List Nat)
    (frame_index : Nat) : List (List Nat) :=
  if h : data = [] then []
  else
    let payload := min data.length (FRAME_SIZE - HEADER_SIZE)
    encode_frame rng rpos frame_index (data.take payload) ::
      encode_file rng (rpos + (FRAME_SIZE - (HEADER_SIZE + payload)))
        (data.drop payload) (frame_index + 1)
termination_by data.length
decreasing_by
  have hlen : 0 < data.length := List.length_pos.mpr h
  have hcap : 0 < FRAME_SIZE - HEADER_SIZE := by decide
  simp only [List.length_drop]
  omega

/-- The per-frame body of the loop of `decode_video`: read the declared payload
length at offset 8, clamp it (`if (payload > FRAME_SIZE - HEADER_SIZE) payload = FRAME_SIZE - HEADER_SIZE;`),
and extract the payload bytes starting at `HEADER_SIZE`.
The frame index read at offset 0 is never used by the code. -/
def decode_frame (frame : List Nat) : List Nat :=
  let payload := read_u64_le (frame.drop 8)
  let clamped := if payload > FRAME_SIZE - HEADER_SIZE then FRAME_SIZE - HEADER_SIZE
                 else payload
  (frame.drop HEADER_SIZE).take clamped

/-- Read loop of `decode_video`: `n = fread(frame, 1, FRAME_SIZE, pipe); if (n < FRAME_SIZE) break;`
over the byte stream `s` coming from the ffmpeg pipe; returns the bytes
written to the output file. -/
def decode_loop (s : List Nat) : List Nat :=
  if s.length < FRAME_SIZE then []
  else decode_frame (s.take FRAME_SIZE) ++ decode_loop (s.drop FRAME_SIZE)
termination_by s.length
decreasing_by
  have : 0 < FRAME_SIZE := by decide
  simp only [List.length_drop]
  omega

/-- Model of `decode_video` on the byte stream coming from the pipe: the
output-file bytes together with the return value (after the pipes are open
the function always reaches `return 0`). -/
def decode_video (s : List Nat) : List Nat × Nat :=
  (decode_loop s, 0)

end YtSafe

namespace TestCpp

/-- Source constant `static const int FRAME_WIDTH = 1920;` -/
def FRAME_WIDTH : Nat := 1920

/-- Source constant `static const int FRAME_HEIGHT = 1080;` -/
def FRAME_HEIGHT : Nat := 1080

/-- Source constant `static const int PACK_PER_PIXEL = 3;` (rgb24) -/
def PACK_PER_PIXEL : Nat := 3

/-- Source constant `static const size_t FRAME_CAPACITY = FRAME_WIDTH * FRAME_HEIGHT * PACK_PER_PIXEL;` -/
def FRAME_CAPACITY : Nat := FRAME_WIDTH * FRAME_HEIGHT * PACK_PER_PIXEL

/-- Source constant `static const size_t QUEUE_MAX_FRAMES = 64;` -/
def QUEUE_MAX_FRAMES : Nat := 64

/-- State of the thread-safe bounded queue `class FrameQueue`: the deque `q`
(front at the head of the list, `emplace_back` appends at the tail), the
`closed` flag, and the configured capacity `max_frames`.  The mutex and the
two condition variables serialise the operations, so the channel is modelled
by the atomic completed operations below. -/
structure FrameQueue (α : Type) where
  q : List α
  closed : Bool
  max_frames : Nat

/-- Method `FrameQueue::push`: `cv_not_full.wait(lk, q.size() < max_frames || closed);
if (closed) return false; q.emplace_back(move(buf)); return true;`.
Completed-call semantics: `none` means the wait condition is false and the
caller is still blocked; otherwise the result holds the state after the call
and the returned bool. -/
def FrameQueue.push {α : Type} (s : FrameQueue α) (x : α) :
    Option (FrameQueue α × Bool) :=
  if s.q.length < s.max_frames ∨ s.closed = true then
    if s.closed = true then some (s, false)
    else some ({ s with q := s.q ++ [x] }, true)
  else none

/-- Method `FrameQueue::pop`: `cv_not_empty.wait(lk, !q.empty() || closed);
if (q.empty()) return false; out = move(q.front()); q.pop_front(); return true;`.
Completed-call semantics as for `push`; the returned `Option α` is the popped
frame (`none` models `return false`, i.e. closed and drained). -/
def FrameQueue.pop {α : Type} (s : FrameQueue α) :
    Option (FrameQueue α × Option α) :=
  if s.q.isEmpty = false ∨ s.closed = true then
    match s.q with
    | [] => some (s, none)
    | x :: rest => some ({ s with q := rest }, some x)
  else none

/-- Method `FrameQueue::close`: `closed = true;` (the notifies only wake
waiters and do not change the state). -/
def FrameQueue.close {α : Type} (s : FrameQueue α) : FrameQueue α :=
  { s with closed := true }

/-- An operation offered to the channel by some thread. -/
inductive QueueOp (α : Type) where
  | push (x : α)
  | pop
  | close

/-- Effect of one offered operation on the channel state: a blocked `push` or
`pop` (result `none`) leaves the state unchanged (the caller keeps waiting). -/
def FrameQueue.step {α : Type} (s : FrameQueue α) : QueueOp α → FrameQueue α
  | QueueOp.push x =>
    match s.push x with
    | some (s2, _) => s2
    | none => s
  | QueueOp.pop =>
    match s.pop with
    | some (s2, _) => s2
    | none => s
  | QueueOp.close => s.close

/-- Run a whole sequence of offered operations. -/
def FrameQueue.run {α : Type} (s : FrameQueue α) (ops : List (QueueOp α)) :
    FrameQueue α :=
  ops.foldl FrameQueue.step s

/-- The producer loop viewed through the channel: push the frames one after
the other (each push landing in whatever state the previous one left). -/
def FrameQueue.pushAll {α : Type} (s : FrameQueue α) (xs : List α) :
    FrameQueue α :=
  xs.foldl (fun s x => s.step (QueueOp.push x)) s

/-- The consumer loop viewed through the channel: pop frames until `pop`
reports closed-and-drained (the writer thread `while (true) { pop; … }`). -/
def FrameQueue.drain {α : Type} (s : FrameQueue α) : List α :=
  match h : s.pop with
  | some (s2, some x) => x :: s2.drain
  | some (_, none) => []
  | none => []
termination_by s.q.length
decreasing_by
  unfold FrameQueue.pop at h
  split at h
  · split at h
    · simp at h
    · simp only [Option.some.injEq, Prod.mk.injEq] at h
      obtain ⟨h1, h2⟩ := h
      subst h1
      simp_all
  · simp at h

/-- Big-endian write of the total file size in the reader thread:
`for (int i = 7; i >= 0; --i) frame[7 - i] = (fs >> (i * 8)) & 0xFF;`,
so byte `j` holds `(fs >> ((7 - j) * 8)) & 0xFF`. -/
def write_u64_be (v : Nat) : List Nat :=
  (List.range 8).map (fun j => (v >>> ((7 - j) * 8)) % 256)

/-- Big-endian read of the size header in the decode branch:
`for (int i = 0; i < 8; ++i) orig_size = (orig_size << 8) | size_bytes[i];`. -/
def read_u64_be (src : List Nat) : Nat :=
  (List.range 8).foldl (fun v i => (v <<< 8) ||| (src.getD i 0)) 0

/-- Source constant `const size_t first_capacity = FRAME_CAPACITY - 8;`
(reserve 8 bytes for the file size). -/
def first_capacity : Nat := FRAME_CAPACITY - 8

/-- First frame built by the reader thread: 8-byte big-endian file size,
then `fread(frame.data() + 8, 1, first_capacity, f)` bytes of the file,
zero-padded up to `FRAME_CAPACITY` when the read came short. -/
def encode_first_frame (file_size : Nat) (data : List Nat) : List Nat :=
  write_u64_be file_size ++ data.take first_capacity ++
    List.replicate (first_capacity - (data.take first_capacity).length) 0

/-- Subsequent frames built by the reader thread: raw `FRAME_CAPACITY`-byte
chunks of the remaining file bytes, zero-padded, stopping at
`read_here == 0` (end of file). -/
def encode_rest (data : List Nat) : List (List Nat) :=
  if h : data = [] then []
  else
    (data.take FRAME_CAPACITY ++
        List.replicate (FRAME_CAPACITY - (data.take FRAME_CAPACITY).length) 0) ::
      encode_rest (data.drop FRAME_CAPACITY)
termination_by data.length
decreasing_by
  have hlen : 0 < data.length := List.length_pos.mpr h
  have hcap : 0 < FRAME_CAPACITY := by decide
  simp only [List.length_drop]
  omega

/-- All frames produced by the reader thread for a file with bytes `data`
(the first iteration runs unconditionally, so even an empty file yields the
header frame). -/
def encode_frames (data : List Nat) : List (List Nat) :=
  encode_first_frame data.length data :: encode_rest (data.drop first_capacity)

/-- The decode branch of `main`: the tmp file holds the whole raw stream `s`;
if fewer than 8 bytes are present the run fails (`return 1`, modelled as
`none`); otherwise the first 8 bytes are read big-endian as `orig_size` and
the next `orig_size` bytes (or as many as remain) are copied to the output. -/
def decode_main (s : List Nat) : Option (List Nat) :=
  if s.length < 8 then none
  else some ((s.drop 8).take (read_u64_be s))

end TestCpp

namespace YtSafe

/-- A disjoint bitwise or is addition: `x ||| y <<< n = x + y * 2 ^ n` when
`x` fits in the low `n` bits. -/
lemma lor_shiftLeft_eq_add {x : Nat} (n y : Nat) (hx : x < 2 ^ n) :
    x ||| y <<< n = x + y * 2 ^ n := by
  rw [Nat.shiftLeft_eq, Nat.lor_comm, Nat.mul_comm y (2 ^ n),
    ← Nat.mul_add_lt_is_or hx y]
  omega

/-- Reading eight little-endian bytes, each `< 256`, yields their base-256 value. -/
lemma read_u64_le_cons (a0 a1 a2 a3 a4 a5 a6 a7 : Nat) (rest : List Nat)
    (h0 : a0 < 256) (h1 : a1 < 256) (h2 : a2 < 256) (h3 : a3 < 256)
    (h4 : a4 < 256) (h5 : a5 < 256) (h6 : a6 < 256) (_h7 : a7 < 256) :
    read_u64_le (a0 :: a1 :: a2 :: a3 :: a4 :: a5 :: a6 :: a7 :: rest) =
      a0 + a1 * 2 ^ 8 + a2 * 2 ^ 16 + a3 * 2 ^ 24 + a4 * 2 ^ 32 +
        a5 * 2 ^ 40 + a6 * 2 ^ 48 + a7 * 2 ^ 56 := by
  have h8 : List.range 8 = [0, 1, 2, 3, 4, 5, 6, 7] := rfl
  unfold read_u64_le
  rw [h8]
  simp only [List.foldl, List.getD_cons_zero, List.getD_cons_succ]
  rw [show (0 * 8 : Nat) = 0 from rfl, show (1 * 8 : Nat) = 8 from rfl,
    show (2 * 8 : Nat) = 16 from rfl, show (3 * 8 : Nat) = 24 from rfl,
    show (4 * 8 : Nat) = 32 from rfl, show (5 * 8 : Nat) = 40 from rfl,
    show (6 * 8 : Nat) = 48 from rfl, show (7 * 8 : Nat) = 56 from rfl]
  rw [Nat.zero_or, Nat.shiftLeft_zero]
  rw [lor_shiftLeft_eq_add 8 a1 (by omega)]
  rw [lor_shiftLeft_eq_add 16 a2 (by omega)]
  rw [lor_shiftLeft_eq_add 24 a3 (by omega)]
  rw [lor_shiftLeft_eq_add 32 a4 (by omega)]
  rw [lor_shiftLeft_eq_add 40 a5 (by omega)]
  rw [lor_shiftLeft_eq_add 48 a6 (by omega)]
  rw [lor_shiftLeft_eq_add 56 a7 (by omega)]

/-- Expansion of `write_u64_le` byte by byte. -/
lemma write_u64_le_eq (v : Nat) :
    write_u64_le v =
      [(v >>> 0) % 256, (v >>> 8) % 256, (v >>> 16) % 256, (v >>> 24) % 256,
       (v >>> 32) % 256, (v >>> 40) % 256, (v >>> 48) % 256, (v >>> 56) % 256] := rfl

/-- The length of an encoded u64 is 8 bytes. -/
lemma write_u64_le_length (v : Nat) : (write_u64_le v).length = 8 := rfl

/-- Reading back a written u64 recovers the value (modulo 2^64 the C
`uint64_t` width; for values below 2^64 this is exact), regardless of the
bytes that follow in the buffer. -/
lemma read_write_u64_le (v : Nat) (rest : List Nat) (hv : v < 2 ^ 64) :
    read_u64_le (write_u64_le v ++ rest) = v := by
  rw [write_u64_le_eq]
  simp only [List.cons_append, List.nil_append]
  rw [read_u64_le_cons _ _ _ _ _ _ _ _ _
    (Nat.mod_lt _ (by norm_num)) (Nat.mod_lt _ (by norm_num))
    (Nat.mod_lt _ (by norm_num)) (Nat.mod_lt _ (by norm_num))
    (Nat.mod_lt _ (by norm_num)) (Nat.mod_lt _ (by norm_num))
    (Nat.mod_lt _ (by norm_num)) (Nat.mod_lt _ (by norm_num))]
  simp only [Nat.shiftRight_eq_div_pow]
  omega

/-- The filler produces exactly the requested number of bytes. -/
lemma noiseFill_length (rng : Nat → Nat) (rpos n : Nat) :
    (noiseFill rng rpos n).length = n := by
  induction n generalizing rpos with
  | zero => rfl
  | succ n ih => simp [noiseFill, ih]

/-- Every encoded frame is exactly `FRAME_SIZE` bytes long. -/
lemma encode_frame_length (rng : Nat → Nat) (rpos frame_index : Nat)
    (chunk : List Nat) (h : chunk.length ≤ FRAME_SIZE - HEADER_SIZE) :
    (encode_frame rng rpos frame_index chunk).length = FRAME_SIZE := by
  have hfs : FRAME_SIZE = 230400 := rfl
  have hhs : HEADER_SIZE = 16 := rfl
  simp only [encode_frame, List.length_append, write_u64_le_length, noiseFill_length]
  omega

/-- The declared payload length stored at offset 8 of an encoded frame reads
back as the length of the chunk. -/
lemma encode_frame_declared (rng : Nat → Nat) (rpos frame_index : Nat)
    (chunk : List Nat) (h : chunk.length ≤ FRAME_SIZE - HEADER_SIZE) :
    read_u64_le ((encode_frame rng rpos frame_index chunk).drop 8) = chunk.length := by
  have hfs : FRAME_SIZE = 230400 := rfl
  have hhs : HEADER_SIZE = 16 := rfl
  have hdrop : (encode_frame rng rpos frame_index chunk).drop 8 =
      write_u64_le chunk.length ++
        (chunk ++ noiseFill rng rpos (FRAME_SIZE - (HEADER_SIZE + chunk.length))) := by
    simp only [encode_frame, List.append_assoc]
    exact List.drop_left' (write_u64_le_length _)
  rw [hdrop, read_write_u64_le _ _ (by omega)]

/-- Decoding an encoded frame recovers exactly the chunk (single-frame
round-trip). -/
lemma decode_frame_encode_frame (rng : Nat → Nat) (rpos frame_index : Nat)
    (chunk : List Nat) (h : chunk.length ≤ FRAME_SIZE - HEADER_SIZE) :
    decode_frame (encode_frame rng rpos frame_index chunk) = chunk := by
  have hdrop16 : (encode_frame rng rpos frame_index chunk).drop HEADER_SIZE =
      chunk ++ noiseFill rng rpos (FRAME_SIZE - (HEADER_SIZE + chunk.length)) := by
    have hassoc : encode_frame rng rpos frame_index chunk =
        (write_u64_le frame_index ++ write_u64_le chunk.length) ++
          (chunk ++ noiseFill rng rpos (FRAME_SIZE - (HEADER_SIZE + chunk.length))) := by
      simp only [encode_frame, List.append_assoc]
    rw [hassoc]
    exact List.drop_left' (by simp [List.length_append, write_u64_le_length, HEADER_SIZE])
  simp only [decode_frame, encode_frame_declared rng rpos frame_index chunk h]
  rw [if_neg (by omega), hdrop16, List.take_left]

/-- Unfolding `decode_loop` across one full frame at the head of the stream. -/
lemma decode_loop_cons (f rest : List Nat) (hf : f.length = FRAME_SIZE) :
    decode_loop (f ++ rest) = decode_frame f ++ decode_loop rest := by
  rw [decode_loop]
  have hlen : (f ++ rest).length = FRAME_SIZE + rest.length := by
    simp [List.length_append, hf]
  rw [if_neg (by omega)]
  rw [List.take_left' hf, List.drop_left' hf]

/-- On fewer bytes than one frame, `decode_loop` produces nothing. -/
lemma decode_loop_short (s : List Nat) (h : s.length < FRAME_SIZE) :
    decode_loop s = [] := by
  rw [decode_loop, if_pos h]

/-- Full-stream round-trip, generalised for induction on the input length. -/
lemma decode_encode_aux (n : Nat) : ∀ (data : List Nat), data.length ≤ n →
    ∀ (rng : Nat → Nat) (rpos frame_index : Nat),
    decode_loop (List.flatten (encode_file rng rpos data frame_index)) = data := by
  induction n with
  | zero =>
    intro data hlen rng rpos frame_index
    have hd : data = [] := List.length_eq_zero.mp (Nat.le_zero.mp hlen)
    subst hd
    rw [encode_file]
    simp only [dif_pos rfl, List.flatten_nil]
    exact decode_loop_short [] (by decide)
  | succ n ih =>
    intro data hlen rng rpos frame_index
    by_cases hd : data = []
    · subst hd
      rw [encode_file]
      simp only [dif_pos rfl, List.flatten_nil]
      exact decode_loop_short [] (by decide)
    · rw [encode_file, dif_neg hd]
      have hcap : 0 < FRAME_SIZE - HEADER_SIZE := by decide
      have hpos : 0 < data.length := List.length_pos.mpr hd
      have hple : (data.take (min data.length (FRAME_SIZE - HEADER_SIZE))).length ≤
          FRAME_SIZE - HEADER_SIZE := by
        simp only [List.length_take]
        omega
      simp only [List.flatten_cons]
      rw [decode_loop_cons _ _ (encode_frame_length _ _ _ _ hple)]
      rw [decode_frame_encode_frame _ _ _ _ hple]
      rw [ih (data.drop (min data.length (FRAME_SIZE - HEADER_SIZE)))
        (by simp only [List.length_drop]; omega) _ _ _]
      exact List.take_append_drop _ data

end YtSafe

namespace TestCpp

/-- Characterisation of `FrameQueue.push` by the three cases of the spec:
closed (fail, no change), open with room (enqueue at the back), open and
full (still blocked). -/
lemma push_eq {α : Type} (s : FrameQueue α) (x : α) :
    s.push x =
      (if s.closed = true then some (s, false)
       else if s.q.length < s.max_frames then some ({ s with q := s.q ++ [x] }, true)
       else none) := by
  unfold FrameQueue.push
  by_cases hc : s.closed = true
  · simp [hc]
  · by_cases hl : s.q.length < s.max_frames <;> simp [hc, hl]

/-- Characterisation of `FrameQueue.pop`: empty and open blocks, empty and
closed reports drained, otherwise the front (the earliest enqueued element)
is removed and returned. -/
lemma pop_eq {α : Type} (s : FrameQueue α) :
    s.pop =
      (match s.q with
       | [] => if s.closed = true then some (s, none) else none
       | x :: rest => some ({ s with q := rest }, some x)) := by
  unfold FrameQueue.pop
  cases hq : s.q with
  | nil => by_cases hc : s.closed = true <;> simp [hq, hc]
  | cons a t => simp [hq]

/-- One offered operation never changes the configured capacity. -/
lemma step_max {α : Type} (s : FrameQueue α) (op : QueueOp α) :
    (s.step op).max_frames = s.max_frames := by
  cases op with
  | push x =>
    simp only [FrameQueue.step, push_eq]
    by_cases hc : s.closed = true
    · simp [hc]
    · by_cases hl : s.q.length < s.max_frames <;> simp [hc, hl]
  | pop =>
    simp only [FrameQueue.step, pop_eq]
    cases hq : s.q with
    | nil => by_cases hc : s.closed = true <;> simp [hc]
    | cons a t => simp
  | close => rfl

/-- One offered operation preserves the occupancy bound. -/
lemma step_bound {α : Type} (s : FrameQueue α) (op : QueueOp α)
    (h : s.q.length ≤ s.max_frames) :
    (s.step op).q.length ≤ s.max_frames := by
  cases op with
  | push x =>
    simp only [FrameQueue.step, push_eq]
    by_cases hc : s.closed = true
    · simp [hc, h]
    · by_cases hl : s.q.length < s.max_frames
      · simp only [hc, hl]
        simp [List.length_append]
        omega
      · simp [hc, hl, h]
  | pop =>
    simp only [FrameQueue.step, pop_eq]
    cases hq : s.q with
    | nil => by_cases hc : s.closed = true <;> simp [hc, h]
    | cons a t =>
      simp only []
      have : t.length ≤ s.q.length := by simp [hq]
      simp only [hq] at h ⊢
      simp at h ⊢
      omega
  | close => simpa [FrameQueue.step, FrameQueue.close] using h

/-- Running a sequence of offered operations never changes the capacity. -/
lemma run_max {α : Type} (ops : List (QueueOp α)) : ∀ (s : FrameQueue α),
    (s.run ops).max_frames = s.max_frames := by
  induction ops with
  | nil => intro s; rfl
  | cons op t ih =>
    intro s
    simp only [FrameQueue.run, List.foldl_cons]
    rw [show List.foldl FrameQueue.step (s.step op) t = (s.step op).run t from rfl]
    rw [ih (s.step op), step_max]

/-- Running a sequence of offered operations preserves the occupancy bound. -/
lemma run_bound {α : Type} (ops : List (QueueOp α)) : ∀ (s : FrameQueue α),
    s.q.length ≤ s.max_frames → (s.run ops).q.length ≤ s.max_frames := by
  induction ops with
  | nil => intro s h; exact h
  | cons op t ih =>
    intro s h
    simp only [FrameQueue.run, List.foldl_cons]
    rw [show List.foldl FrameQueue.step (s.step op) t = (s.step op).run t from rfl]
    have h2 : (s.step op).q.length ≤ (s.step op).max_frames := by
      rw [step_max]
      exact step_bound s op h
    have := ih (s.step op) h2
    rwa [step_max] at this

/-- Draining a closed queue yields exactly its contents, front first. -/
lemma drain_closed {α : Type} (q : List α) (m : Nat) :
    FrameQueue.drain ⟨q, true, m⟩ = q := by
  induction q with
  | nil =>
    rw [FrameQueue.drain]
    split
    · rename_i s2 x h
      rw [pop_eq] at h
      simp at h
    · rfl
    · rfl
  | cons a t ih =>
    rw [FrameQueue.drain]
    split
    · rename_i s2 x h
      rw [pop_eq] at h
      simp only [Option.some.injEq, Prod.mk.injEq] at h
      obtain ⟨hs, hx⟩ := h
      rw [← hs, ← hx]
      rw [ih]
    · rename_i h
      rw [pop_eq] at h
      simp at h
    · rename_i h
      rw [pop_eq] at h
      simp at h

/-- Pushing a list of frames into an open queue with enough room appends
them in order at the back. -/
lemma pushAll_open {α : Type} (xs : List α) : ∀ (q : List α) (m : Nat),
    q.length + xs.length ≤ m →
    FrameQueue.pushAll ⟨q, false, m⟩ xs = ⟨q ++ xs, false, m⟩ := by
  induction xs with
  | nil => intro q m h; simp [FrameQueue.pushAll]
  | cons x t ih =>
    intro q m h
    simp only [FrameQueue.pushAll, List.foldl_cons]
    have hstep : FrameQueue.step ⟨q, false, m⟩ (QueueOp.push x) = ⟨q ++ [x], false, m⟩ := by
      simp only [FrameQueue.step, push_eq]
      rw [if_neg (by simp)]
      rw [if_pos (show List.length q < m by simp only [List.length_cons] at h; omega)]
    rw [hstep]
    have := ih (q ++ [x]) m
      (by simp only [List.length_append, List.length_cons, List.length_nil] at h ⊢; omega)
    simp only [FrameQueue.pushAll] at this
    rw [this, List.append_assoc]
    rfl

end TestCpp

namespace YtSafe

/-- Appending fewer bytes than one frame after a whole number of frames does
not change what `decode_loop` produces: the trailing short read ends the loop. -/
lemma decode_loop_append_of_dvd (k : Nat) : ∀ (s t : List Nat),
    s.length = FRAME_SIZE * k → t.length < FRAME_SIZE →
    decode_loop (s ++ t) = decode_loop s := by
  induction k with
  | zero =>
    intro s t hs ht
    have hs0 : s = [] := List.length_eq_zero.mp (by omega)
    subst hs0
    simp only [List.nil_append]
    rw [decode_loop_short t ht, decode_loop_short [] (by decide)]
  | succ k ih =>
    intro s t hs ht
    have hfs : FRAME_SIZE = 230400 := rfl
    rw [hfs] at hs
    have htake : (s.take FRAME_SIZE).length = FRAME_SIZE := by
      simp only [List.length_take, hfs]
      omega
    have hdrop : (s.drop FRAME_SIZE).length = FRAME_SIZE * k := by
      simp only [List.length_drop, hfs]
      omega
    have hsplit := List.take_append_drop FRAME_SIZE s
    calc decode_loop (s ++ t)
        = decode_loop ((s.take FRAME_SIZE ++ s.drop FRAME_SIZE) ++ t) := by rw [hsplit]
      _ = decode_loop (s.take FRAME_SIZE ++ (s.drop FRAME_SIZE ++ t)) := by
            rw [List.append_assoc]
      _ = decode_frame (s.take FRAME_SIZE) ++ decode_loop (s.drop FRAME_SIZE ++ t) :=
            decode_loop_cons _ _ htake
      _ = decode_frame (s.take FRAME_SIZE) ++ decode_loop (s.drop FRAME_SIZE) := by
            rw [ih (s.drop FRAME_SIZE) t hdrop ht]
      _ = decode_loop (s.take FRAME_SIZE ++ s.drop FRAME_SIZE) :=
            (decode_loop_cons _ _ htake).symm
      _ = decode_loop s := by rw [hsplit]

/-- Byte `j` of the filler region is the value of the `rand()` call made for
that position, reduced modulo 256. -/
lemma noiseFill_getD (rng : Nat → Nat) : ∀ (n rpos j : Nat), j < n →
    (noiseFill rng rpos n).getD j 0 = rng (rpos + j) % 256 := by
  intro n
  induction n with
  | zero => intro rpos j h; exact absurd h (by omega)
  | succ n ih =>
    intro rpos j h
    cases j with
    | zero => simp [noiseFill]
    | succ j =>
      simp only [noiseFill, List.getD_cons_succ]
      rw [ih (rpos + 1) j (by omega)]
      have harg : rpos + 1 + j = rpos + (j + 1) := by omega
      rw [harg]

/-- Filler byte at offset `HEADER_SIZE + chunk.length + j` of an encoded
frame equals `rng (rpos + j) % 256`. -/
lemma encode_frame_filler (rng : Nat → Nat) (rpos frame_index : Nat)
    (chunk : List Nat) (j : Nat)
    (hj : j < FRAME_SIZE - (HEADER_SIZE + chunk.length)) :
    (encode_frame rng rpos frame_index chunk).getD (HEADER_SIZE + chunk.length + j) 0 =
      rng (rpos + j) % 256 := by
  have hhs : HEADER_SIZE = 16 := rfl
  have hassoc : encode_frame rng rpos frame_index chunk =
      ((write_u64_le frame_index ++ write_u64_le chunk.length) ++ chunk) ++
        noiseFill rng rpos (FRAME_SIZE - (HEADER_SIZE + chunk.length)) := by
    simp [encode_frame, List.append_assoc]
  have hplen : ((write_u64_le frame_index ++ write_u64_le chunk.length) ++ chunk).length =
      16 + chunk.length := by
    simp [List.length_append, write_u64_le_length]
    omega
  rw [hassoc, List.getD_append_right _ _ _ _ (by rw [hplen]; omega)]
  rw [hplen]
  have hidx : HEADER_SIZE + chunk.length + j - (16 + chunk.length) = j := by omega
  rw [hidx]
  exact noiseFill_getD rng _ rpos j hj

/-- `decode_frame` only looks at the bytes from offset 8 on (the frame index
in the first 8 bytes is ignored). -/
lemma decode_frame_congr (f1 f2 : List Nat) (h : f1.drop 8 = f2.drop 8) :
    decode_frame f1 = decode_frame f2 := by
  have h16 : f1.drop HEADER_SIZE = f2.drop HEADER_SIZE := by
    have e : HEADER_SIZE = 8 + 8 := rfl
    rw [e, ← List.drop_drop, ← List.drop_drop, h]
  simp only [decode_frame, h, h16]

/-- Streams of full frames that agree from offset 8 of every frame on decode
to the same output. -/
lemma decode_loop_frames (fs1 : List (List Nat)) : ∀ (fs2 : List (List Nat)),
    fs1.length = fs2.length →
    (∀ i, i < fs1.length → (fs1.getD i []).length = FRAME_SIZE) →
    (∀ i, i < fs1.length → (fs2.getD i []).length = FRAME_SIZE) →
    (∀ i, i < fs1.length → (fs1.getD i []).drop 8 = (fs2.getD i []).drop 8) →
    decode_loop fs1.flatten = decode_loop fs2.flatten := by
  induction fs1 with
  | nil =>
    intro fs2 hlen _ _ _
    have : fs2 = [] := List.length_eq_zero.mp hlen.symm
    rw [this]
  | cons f1 t1 ih =>
    intro fs2 hlen h1 h2 h3
    cases fs2 with
    | nil => simp at hlen
    | cons f2 t2 =>
      have hf1 : f1.length = FRAME_SIZE := by
        have := h1 0 (by simp)
        simpa using this
      have hf2 : f2.length = FRAME_SIZE := by
        have := h2 0 (by simp)
        simpa using this
      have hd : f1.drop 8 = f2.drop 8 := by
        have := h3 0 (by simp)
        simpa using this
      simp only [List.flatten_cons]
      rw [decode_loop_cons _ _ hf1, decode_loop_cons _ _ hf2]
      rw [decode_frame_congr f1 f2 hd]
      congr 1
      exact ih t2 (by simpa using hlen)
        (fun i hi => by
          have := h1 (i + 1) (by simp only [List.length_cons]; omega)
          simpa using this)
        (fun i hi => by
          have := h2 (i + 1) (by simp only [List.length_cons]; omega)
          simpa using this)
        (fun i hi => by
          have := h3 (i + 1) (by simp only [List.length_cons]; omega)
          simpa using this)

/-- Sum of the declared payload lengths across the produced frames, generalised
for induction on the input length. -/
lemma sum_declared_aux (n : Nat) : ∀ (data : List Nat), data.length ≤ n →
    ∀ (rng : Nat → Nat) (rpos frame_index : Nat),
    ((encode_file rng rpos data frame_index).map
      (fun f => read_u64_le (f.drop 8))).sum = data.length := by
  induction n with
  | zero =>
    intro data hlen rng rpos frame_index
    have hd : data = [] := List.length_eq_zero.mp (Nat.le_zero.mp hlen)
    subst hd
    rw [encode_file]
    simp
  | succ n ih =>
    intro data hlen rng rpos frame_index
    by_cases hd : data = []
    · subst hd
      rw [encode_file]
      simp
    · rw [encode_file, dif_neg hd]
      have hpos : 0 < data.length := List.length_pos.mpr hd
      have hcap : 0 < FRAME_SIZE - HEADER_SIZE := by decide
      have hple : (data.take (min data.length (FRAME_SIZE - HEADER_SIZE))).length ≤
          FRAME_SIZE - HEADER_SIZE := by
        simp only [List.length_take]
        omega
      simp only [List.map_cons, List.sum_cons]
      rw [encode_frame_declared _ _ _ _ hple]
      rw [ih (data.drop (min data.length (FRAME_SIZE - HEADER_SIZE)))
        (by simp only [List.length_drop]; omega) _ _ _]
      simp only [List.length_take, List.length_drop]
      omega

end YtSafe

namespace TestCpp

/-- The reader thread on an empty file produces exactly the header-only
first frame: the big-endian zero size followed by zero padding. -/
lemma encode_frames_nil :
    encode_frames [] = [write_u64_be 0 ++ List.replicate first_capacity 0] := by
  have hrest : encode_rest ([] : List Nat) = [] := by
    rw [encode_rest]
    simp
  unfold encode_frames encode_first_frame
  simp [hrest]

/-- Reading back a big-endian zero gives zero, whatever follows. -/
lemma read_u64_be_zeros (rest : List Nat) :
    read_u64_be (write_u64_be 0 ++ rest) = 0 := by
  have hw : write_u64_be 0 ++ rest = 0 :: 0 :: 0 :: 0 :: 0 :: 0 :: 0 :: 0 :: rest := rfl
  rw [hw]
  unfold read_u64_be
  have h8 : List.range 8 = [0, 1, 2, 3, 4, 5, 6, 7] := rfl
  rw [h8]
  simp [List.getD_cons_zero, List.getD_cons_succ]

/-- Decoding the stream produced for an empty file restores an empty file. -/
lemma decode_main_encode_nil :
    decode_main (List.flatten (encode_frames [])) = some [] := by
  rw [encode_frames_nil]
  simp only [List.flatten_cons, List.flatten_nil, List.append_nil]
  unfold decode_main
  rw [if_neg (by
    simp only [List.length_append, List.length_replicate]
    decide)]
  rw [read_u64_be_zeros]
  simp

end TestCpp

/-- Claim C1: codec round-trip.  Per-frame: decoding the frame produced for a
chunk of at most `FRAME_SIZE - HEADER_SIZE` bytes yields exactly that chunk.
Full stream: for an input byte sequence of any length (zero, one frame, or
spanning many frames) the full decode of the full encode reproduces the
input bit for bit, for every `rand()` stream, cursor and starting index. -/
theorem codec_roundtrip (chunk data : List Nat) (rng rng2 : Nat → Nat)
    (rpos rpos2 frame_index frame_index2 : Nat)
    (h : chunk.length ≤ YtSafe.FRAME_SIZE - YtSafe.HEADER_SIZE) :
    YtSafe.decode_frame (YtSafe.encode_frame rng rpos frame_index chunk) = chunk ∧
    (YtSafe.decode_video
        (List.flatten (YtSafe.encode_file rng2 rpos2 data frame_index2))).1 = data :=
  ⟨YtSafe.decode_frame_encode_frame rng rpos frame_index chunk h,
   YtSafe.decode_encode_aux data.length data le_rfl rng2 rpos2 frame_index2⟩

/-- Witness for C1 at concrete inputs. -/
theorem codec_roundtrip_witness :
    ([1, 2, 3] : List Nat).length ≤ YtSafe.FRAME_SIZE - YtSafe.HEADER_SIZE ∧
    (YtSafe.decode_frame (YtSafe.encode_frame (fun _ => 0) 0 0 [1, 2, 3]) = [1, 2, 3] ∧
     (YtSafe.decode_video
        (List.flatten (YtSafe.encode_file (fun n => n) 5 [4, 5] 0))).1 = [4, 5]) :=
  ⟨by decide, codec_roundtrip [1, 2, 3] [4, 5] (fun _ => 0) (fun n => n) 0 5 0 0 (by decide)⟩

/-- Claim C2: padding clamp safety.  When the declared payload length in the
header exceeds `FRAME_SIZE - HEADER_SIZE`, decode clamps it to exactly that
ceiling, so the extracted payload has length `FRAME_SIZE - HEADER_SIZE` and
the byte range read, `[HEADER_SIZE, HEADER_SIZE + length)`, stays inside the
`FRAME_SIZE`-byte frame buffer. -/
theorem decode_clamp (frame : List Nat)
    (hlen : frame.length = YtSafe.FRAME_SIZE)
    (hdecl : YtSafe.FRAME_SIZE - YtSafe.HEADER_SIZE < YtSafe.read_u64_le (frame.drop 8)) :
    YtSafe.decode_frame frame =
      (frame.drop YtSafe.HEADER_SIZE).take (YtSafe.FRAME_SIZE - YtSafe.HEADER_SIZE) ∧
    (YtSafe.decode_frame frame).length = YtSafe.FRAME_SIZE - YtSafe.HEADER_SIZE ∧
    YtSafe.HEADER_SIZE + (YtSafe.decode_frame frame).length ≤ YtSafe.FRAME_SIZE := by
  have hfs : YtSafe.FRAME_SIZE = 230400 := rfl
  have hhs : YtSafe.HEADER_SIZE = 16 := rfl
  have h1 : YtSafe.decode_frame frame =
      (frame.drop YtSafe.HEADER_SIZE).take (YtSafe.FRAME_SIZE - YtSafe.HEADER_SIZE) := by
    simp only [YtSafe.decode_frame]
    rw [if_pos hdecl]
  have h2 : (YtSafe.decode_frame frame).length = YtSafe.FRAME_SIZE - YtSafe.HEADER_SIZE := by
    rw [h1]
    simp only [List.length_take, List.length_drop, hlen]
    omega
  exact ⟨h1, h2, by omega⟩

/-- Witness for C2: a full-size frame whose header declares payload length
`2 ^ 64 - 1`. -/
theorem decode_clamp_witness :
    (YtSafe.write_u64_le 0 ++ YtSafe.write_u64_le (2 ^ 64 - 1) ++
        List.replicate (YtSafe.FRAME_SIZE - 16) 7).length = YtSafe.FRAME_SIZE ∧
    YtSafe.FRAME_SIZE - YtSafe.HEADER_SIZE <
      YtSafe.read_u64_le ((YtSafe.write_u64_le 0 ++ YtSafe.write_u64_le (2 ^ 64 - 1) ++
        List.replicate (YtSafe.FRAME_SIZE - 16) 7).drop 8) ∧
    (YtSafe.decode_frame (YtSafe.write_u64_le 0 ++ YtSafe.write_u64_le (2 ^ 64 - 1) ++
        List.replicate (YtSafe.FRAME_SIZE - 16) 7)).length =
      YtSafe.FRAME_SIZE - YtSafe.HEADER_SIZE := by
  have hlen : (YtSafe.write_u64_le 0 ++ YtSafe.write_u64_le (2 ^ 64 - 1) ++
      List.replicate (YtSafe.FRAME_SIZE - 16) 7).length = YtSafe.FRAME_SIZE := by
    simp only [List.length_append, YtSafe.write_u64_le_length, List.length_replicate]
    decide
  have hdecl : YtSafe.FRAME_SIZE - YtSafe.HEADER_SIZE <
      YtSafe.read_u64_le ((YtSafe.write_u64_le 0 ++ YtSafe.write_u64_le (2 ^ 64 - 1) ++
        List.replicate (YtSafe.FRAME_SIZE - 16) 7).drop 8) := by
    rw [List.append_assoc]
    rw [List.drop_left' (YtSafe.write_u64_le_length 0)]
    rw [YtSafe.read_write_u64_le _ _ (by norm_num)]
    decide
  exact ⟨hlen, hdecl, (decode_clamp _ hlen hdecl).2.1⟩

/-- Claim C3: bounded occupancy invariant.  Starting from the empty channel
with capacity `QUEUE_MAX_FRAMES`, after any sequence of offered push, pop and
close operations the internal queue never holds more than `QUEUE_MAX_FRAMES`
frames. -/
theorem queue_occupancy_bounded (ops : List (TestCpp.QueueOp (List Nat))) :
    ((TestCpp.FrameQueue.mk [] false TestCpp.QUEUE_MAX_FRAMES).run ops).q.length ≤
      TestCpp.QUEUE_MAX_FRAMES :=
  TestCpp.run_bound ops _ (Nat.zero_le _)

/-- Claim C4: push contract.  Push on a closed channel returns `false` and
leaves the queue unchanged; push on an open channel with room enqueues at the
back and returns `true`; push on an open full channel stays blocked; and
after `close`, every push fails. -/
theorem push_contract (q : List (List Nat)) (c : Bool) (m : Nat) (x : List Nat) :
    TestCpp.FrameQueue.push ⟨q, c, m⟩ x =
      (if c = true then some (⟨q, c, m⟩, false)
       else if q.length < m then some (⟨q ++ [x], c, m⟩, true)
       else none) ∧
    TestCpp.FrameQueue.push (TestCpp.FrameQueue.close ⟨q, c, m⟩) x =
      some (TestCpp.FrameQueue.close ⟨q, c, m⟩, false) := by
  constructor
  · exact TestCpp.push_eq _ _
  · rw [TestCpp.push_eq]
    simp [TestCpp.FrameQueue.close]

/-- Claim C5: pop contract and FIFO order.  Pop blocks while the channel is
empty and open; returns `none` once closed and drained; otherwise removes and
returns the front of the queue, the earliest-enqueued frame.  Consequently
pushing a list of frames and then draining the closed channel returns exactly
that list, in push order. -/
theorem pop_contract_fifo (q : List (List Nat)) (c : Bool) (m : Nat)
    (xs : List (List Nat)) (hcap : xs.length ≤ m) :
    (TestCpp.FrameQueue.pop ⟨q, c, m⟩ =
      (match q with
       | [] => if c = true then some (⟨[], c, m⟩, none) else none
       | x :: rest => some (⟨rest, c, m⟩, some x))) ∧
    TestCpp.FrameQueue.drain
        (TestCpp.FrameQueue.close (TestCpp.FrameQueue.pushAll ⟨[], false, m⟩ xs)) = xs := by
  constructor
  · cases q with
    | nil => simp [TestCpp.pop_eq]
    | cons a t => simp [TestCpp.pop_eq]
  · rw [TestCpp.pushAll_open xs [] m (by simpa using hcap)]
    show TestCpp.FrameQueue.drain ⟨[] ++ xs, true, m⟩ = xs
    rw [List.nil_append]
    exact TestCpp.drain_closed xs m

/-- Witness for C5 at concrete inputs. -/
theorem pop_contract_fifo_witness :
    ([[5], [6], [7]] : List (List Nat)).length ≤ 3 ∧
    (TestCpp.FrameQueue.pop ⟨[[9]], false, 3⟩ = some (⟨[], false, 3⟩, some [9]) ∧
     TestCpp.FrameQueue.drain
        (TestCpp.FrameQueue.close
          (TestCpp.FrameQueue.pushAll ⟨[], false, 3⟩ [[5], [6], [7]])) = [[5], [6], [7]]) :=
  ⟨by decide, pop_contract_fifo [[9]] false 3 [[5], [6], [7]] (by decide)⟩

/-- Claim C6: decode termination on short read.  If the stream consists of
some whole number of frames followed by a tail shorter than one frame, the
read loop stops at the short read: the tail contributes nothing, and the run
still returns 0 (success, normal end of stream). -/
theorem decode_short_read (s t : List Nat)
    (h1 : YtSafe.FRAME_SIZE ∣ s.length) (h2 : t.length < YtSafe.FRAME_SIZE) :
    YtSafe.decode_video (s ++ t) = (YtSafe.decode_loop s, 0) := by
  obtain ⟨k, hk⟩ := h1
  unfold YtSafe.decode_video
  rw [YtSafe.decode_loop_append_of_dvd k s t hk h2]

/-- Witness for C6 at concrete inputs. -/
theorem decode_short_read_witness :
    YtSafe.FRAME_SIZE ∣ ([] : List Nat).length ∧
    ([1, 2, 3] : List Nat).length < YtSafe.FRAME_SIZE ∧
    YtSafe.decode_video (([] : List Nat) ++ [1, 2, 3]) = (YtSafe.decode_loop [], 0) :=
  ⟨dvd_zero YtSafe.FRAME_SIZE, by decide,
   decode_short_read [] [1, 2, 3] (dvd_zero YtSafe.FRAME_SIZE) (by decide)⟩

/-- Counterexample to C7 as stated: with the `rand()` stream returning values
divisible by 256 (for example 0, which `rand` may return), the filler byte at
offset 17 — inside the filler region, since the payload is the single byte at
offset 16 — is zero, so the filler is not always non-zero. -/
theorem noise_filler_zero_byte :
    YtSafe.HEADER_SIZE + ([1] : List Nat).length ≤ 17 ∧ 17 < YtSafe.FRAME_SIZE ∧
    (YtSafe.encode_frame (fun _ => 0) 0 0 [1]).getD 17 1 = 0 := by
  refine ⟨by decide, by decide, ?_⟩
  decide

/-- Claim C7 (amended): every filler byte beyond the real payload equals the
`rand()` value drawn for that position reduced modulo 256 — an arbitrary byte
in `[0, 256)`, which can be zero; the code does not exclude zero. -/
theorem noise_filler_mod256 (rng : Nat → Nat) (rpos frame_index : Nat)
    (chunk : List Nat) (j : Nat)
    (hj : j < YtSafe.FRAME_SIZE - (YtSafe.HEADER_SIZE + chunk.length)) :
    (YtSafe.encode_frame rng rpos frame_index chunk).getD
        (YtSafe.HEADER_SIZE + chunk.length + j) 0 = rng (rpos + j) % 256 ∧
    rng (rpos + j) % 256 < 256 :=
  ⟨YtSafe.encode_frame_filler rng rpos frame_index chunk j hj,
   Nat.mod_lt _ (by norm_num)⟩

/-- Witness for C7 (amended) at concrete inputs. -/
theorem noise_filler_mod256_witness :
    (2 : Nat) < YtSafe.FRAME_SIZE - (YtSafe.HEADER_SIZE + ([1] : List Nat).length) ∧
    ((YtSafe.encode_frame (fun n => n + 7) 0 0 [1]).getD
        (YtSafe.HEADER_SIZE + ([1] : List Nat).length + 2) 0 = (fun n => n + 7) (0 + 2) % 256 ∧
     (fun n => n + 7) (0 + 2) % 256 < 256) :=
  ⟨by decide, noise_filler_mod256 (fun n => n + 7) 0 0 [1] 2 (by decide)⟩

/-- Claim C8: payload-length sum invariant.  The declared payload lengths
written into the headers of all frames produced by the encoder sum to exactly
the input size, for every input and every `rand()` stream. -/
theorem header_payload_sum (data : List Nat) (rng : Nat → Nat) (rpos frame_index : Nat) :
    ((YtSafe.encode_file rng rpos data frame_index).map
      (fun f => YtSafe.read_u64_le (f.drop 8))).sum = data.length :=
  YtSafe.sum_declared_aux data.length data le_rfl rng rpos frame_index

/-- Counterexample to C9 as stated: the per-frame encoder
(`while (bytes_left > 0)`) produces no frame at all for a 0-byte input, not
at least one. -/
theorem empty_input_no_frame :
    ¬ 1 ≤ (YtSafe.encode_file (fun _ => 0) 0 [] 0).length := by
  rw [YtSafe.encode_file]
  simp

/-- Claim C9 (amended): for a 0-byte input the per-frame encoder of
`yt-safe.cpp` produces zero frames (not at least one), and decoding its
(empty) output still yields a 0-byte file; the global-size encoder of
`test.cpp` does produce exactly one header-only frame, and its decoder
yields a 0-byte file. -/
theorem empty_file_scenario (rng : Nat → Nat) (rpos frame_index : Nat) :
    YtSafe.encode_file rng rpos [] frame_index = [] ∧
    (YtSafe.decode_video (List.flatten (YtSafe.encode_file rng rpos [] frame_index))).1 = [] ∧
    (TestCpp.encode_frames []).length = 1 ∧
    TestCpp.decode_main (List.flatten (TestCpp.encode_frames [])) = some [] := by
  have he : YtSafe.encode_file rng rpos [] frame_index = [] := by
    rw [YtSafe.encode_file]
    simp
  refine ⟨he, ?_, ?_, TestCpp.decode_main_encode_nil⟩
  · rw [he]
    simp only [List.flatten_nil]
    show YtSafe.decode_loop [] = []
    exact YtSafe.decode_loop_short [] (by decide)
  · rw [TestCpp.encode_frames_nil]
    rfl

/-- Claim C10: decode ignores the frame index.  Two streams of full frames
whose frames agree on every byte from offset 8 on (so they may differ
arbitrarily in the 8-byte index field) decode to identical outputs: the
output is determined solely by arrival order and declared payload lengths. -/
theorem decode_ignores_index (fs1 fs2 : List (List Nat))
    (hlen : fs1.length = fs2.length)
    (h1 : ∀ i, i < fs1.length → (fs1.getD i []).length = YtSafe.FRAME_SIZE)
    (h2 : ∀ i, i < fs1.length → (fs2.getD i []).length = YtSafe.FRAME_SIZE)
    (h3 : ∀ i, i < fs1.length → (fs1.getD i []).drop 8 = (fs2.getD i []).drop 8) :
    (YtSafe.decode_video fs1.flatten).1 = (YtSafe.decode_video fs2.flatten).1 :=
  YtSafe.decode_loop_frames fs1 fs2 hlen h1 h2 h3

/-- Witness for C10: two one-frame streams with different index fields (3
versus 999) but identical bytes from offset 8 decode identically. -/
theorem decode_ignores_index_witness :
    (YtSafe.decode_video
        (List.flatten [YtSafe.write_u64_le 3 ++ YtSafe.write_u64_le 2 ++
          List.replicate (YtSafe.FRAME_SIZE - 16) 1])).1 =
    (YtSafe.decode_video
        (List.flatten [YtSafe.write_u64_le 999 ++ YtSafe.write_u64_le 2 ++
          List.replicate (YtSafe.FRAME_SIZE - 16) 1])).1 := by
  refine decode_ignores_index _ _ rfl ?_ ?_ ?_
  · intro i hi
    simp only [List.length_cons, List.length_nil] at hi
    have hi0 : i = 0 := by omega
    subst hi0
    simp only [List.getD_cons_zero]
    simp only [List.length_append, YtSafe.write_u64_le_length, List.length_replicate]
    decide
  · intro i hi
    simp only [List.length_cons, List.length_nil] at hi
    have hi0 : i = 0 := by omega
    subst hi0
    simp only [List.getD_cons_zero]
    simp only [List.length_append, YtSafe.write_u64_le_length, List.length_replicate]
    decide
  · intro i hi
    simp only [List.length_cons, List.length_nil] at hi
    have hi0 : i = 0 := by omega
    subst hi0
    simp only [List.getD_cons_zero, List.append_assoc]
    rw [List.drop_left' (YtSafe.write_u64_le_length 3),
      List.drop_left' (YtSafe.write_u64_le_length 999)]
